import Mathlib

/-!
Verification of the authority scanner of the linkify library.

The definitions below are shallow embeddings of the functions in
src/domains.rs and src/chars.rs.  Strings are modelled as lists of
characters; byte offsets are modelled as natural numbers computed from
the UTF-8 size of each character, exactly as Rust's char_indices does.
-/

namespace Linkify

/-- Model of Rust's std char::is_whitespace, i.e. the Unicode
White_Space property (Unicode 15): U+0009..U+000D, U+0020, U+0085,
U+00A0, U+1680, U+2000..U+200A, U+2028, U+2029, U+202F, U+205F,
U+3000. -/
def rustIsWhitespace (c : Char) : Bool :=
  (0x09 ≤ c.val && c.val ≤ 0x0D) || c.val = 0x20 || c.val = 0x85 ||
  c.val = 0xA0 || c.val = 0x1680 || (0x2000 ≤ c.val && c.val ≤ 0x200A) ||
  c.val = 0x2028 || c.val = 0x2029 || c.val = 0x202F || c.val = 0x205F ||
  c.val = 0x3000

/-- Embedding of is_email_local_char from src/chars.rs.  The first
condition is the list of match arms for ASCII atext; the fallback arm
accepts any code point at least U+0080 that is not Unicode whitespace.
Characters with awkward literals are matched on their code point
(39 = apostrophe, 96 = backtick, 123/125 = braces). -/
def is_email_local_char (c : Char) : Bool :=
  if ('a' ≤ c && c ≤ 'z') || ('A' ≤ c && c ≤ 'Z') || ('0' ≤ c && c ≤ '9') ||
     c = '!' || c = '#' || c = '$' || c = '%' || c = '&' || c.val = 39 ||
     c = '*' || c = '+' || c = '-' || c = '/' || c = '=' || c = '?' ||
     c = '^' || c = '_' || c.val = 96 || c.val = 123 || c = '|' ||
     c.val = 125 || c = '~'
  then true
  else 0x80 ≤ c.val && !(rustIsWhitespace c)

/-- The sub-delims recognised by find_authority_end
(code point 39 is the apostrophe). -/
def isSubDelim (c : Char) : Bool :=
  c = '!' || c = '$' || c = '&' || c.val = 39 || c = '(' || c = ')' ||
  c = '*' || c = '+' || c = ',' || c = ';' || c = '='

/-- ASCII letters and digits, used to state the userinfo-reset claim. -/
def isAlnumAscii (c : Char) : Bool :=
  ('a' ≤ c && c ≤ 'z') || ('A' ≤ c && c ≤ 'Z') || ('0' ≤ c && c ≤ '9')

/-- Total UTF-8 byte length of a character list. -/
def utf8Len : List Char → Nat
  | [] => 0
  | c :: cs => c.utf8Size + utf8Len cs

/-- The character whose UTF-8 encoding starts at byte offset n, when n
is on a code-point boundary. -/
def charAtByte : List Char → Nat → Option Char
  | [], _ => none
  | c :: cs, n =>
    if n = 0 then some c
    else if n < c.utf8Size then none
    else charAtByte cs (n - c.utf8Size)

/-- The suffix of a string starting at byte offset n (Rust slice
s[n..]), meaningful when n is on a code-point boundary. -/
def suffixFrom : List Char → Nat → List Char
  | cs, 0 => cs
  | [], _ => []
  | c :: cs, n + 1 => suffixFrom cs (n + 1 - c.utf8Size)

/-- A byte offset that falls on a UTF-8 code-point boundary of s. -/
def IsBoundary (s : List Char) (n : Nat) : Prop :=
  ∃ p q, s = p ++ q ∧ utf8Len p = n

/-- The mutable local state of the reg-name loop of find_authority_end
in src/domains.rs (userinfo_allowed is a mutable argument there). -/
structure AuthState where
  endO : Option Nat
  maybe_last_dot : Option Nat
  last_dot : Option Nat
  number_dots : Nat
  dot_allowed : Bool
  hyphen_allowed : Bool
  all_numeric : Bool
  maybe_host : Bool
  host_ended : Bool
  userinfo_allowed : Bool
deriving Repr, DecidableEq

/-- Outcome of one iteration of the reg-name loop: continue with a new
state, break out of the loop with a final state, or return (None, None)
from the whole function. -/
inductive StepRes where
  | cont (st : AuthState) : StepRes
  | stop (st : AuthState) : StepRes
  | fail : StepRes
deriving Repr, DecidableEq

/-- The assignment end = Some(i + c.len_utf8()) guarded by can_be_last. -/
def setEnd (can : Bool) (j : Nat) (st : AuthState) : AuthState :=
  if can then { st with endO := some j } else st

/-- The match-arm classes of the reg-name loop of find_authority_end,
in the order the source lists them. -/
inductive CharClass where
  | letter : CharClass
  | big : CharClass
  | digit : CharClass
  | hyphen : CharClass
  | dot : CharClass
  | undertilde : CharClass
  | subdelim : CharClass
  | colon : CharClass
  | atsign : CharClass
  | slash : CharClass
  | other : CharClass
deriving Repr, DecidableEq

/-- Which match arm of the reg-name loop a character falls into,
following the pattern order of the source (the patterns are mutually
exclusive, so the order is immaterial). -/
def classify (c : Char) : CharClass :=
  if ('a' ≤ c && c ≤ 'z') || ('A' ≤ c && c ≤ 'Z') then CharClass.letter
  else if 0x80 ≤ c.val then CharClass.big
  else if '0' ≤ c && c ≤ '9' then CharClass.digit
  else if c = '-' then CharClass.hyphen
  else if c = '.' then CharClass.dot
  else if c = '_' || c = '~' then CharClass.undertilde
  else if isSubDelim c then CharClass.subdelim
  else if c = ':' then CharClass.colon
  else if c = '@' then CharClass.atsign
  else if c = '/' then CharClass.slash
  else CharClass.other

/-- One iteration of the for-loop of find_authority_end, for character
c at byte offset i.  Each branch is a direct translation of the
corresponding match arm in src/domains.rs. -/
def authStep (rh pa iri : Bool) (c : Char) (i : Nat) (st : AuthState) : StepRes :=
  match classify c with
  | CharClass.letter =>
    StepRes.cont (setEnd (!rh || !st.host_ended) (i + c.utf8Size)
      { st with dot_allowed := true, hyphen_allowed := true,
                last_dot := st.maybe_last_dot, all_numeric := false,
                maybe_host := st.maybe_host && !st.host_ended })
  | CharClass.big =>
    if !iri then StepRes.stop st
    else if rustIsWhitespace c then StepRes.stop st
    else
      StepRes.cont (setEnd (!rh || !st.host_ended) (i + c.utf8Size)
        { st with dot_allowed := true, hyphen_allowed := true,
                  last_dot := st.maybe_last_dot, all_numeric := false,
                  maybe_host := st.maybe_host && !st.host_ended })
  | CharClass.digit =>
    StepRes.cont (setEnd (!rh || !st.host_ended) (i + c.utf8Size)
      { st with dot_allowed := true, hyphen_allowed := true,
                last_dot :=
                  if st.last_dot ≠ st.maybe_last_dot then st.maybe_last_dot
                  else st.last_dot,
                number_dots :=
                  if st.last_dot ≠ st.maybe_last_dot then st.number_dots + 1
                  else st.number_dots,
                maybe_host := st.maybe_host && !st.host_ended })
  | CharClass.hyphen =>
    StepRes.cont (setEnd (!rh) (i + c.utf8Size)
      { st with maybe_host := st.maybe_host && st.hyphen_allowed,
                dot_allowed := false, all_numeric := false })
  | CharClass.dot =>
    StepRes.cont
      { st with host_ended := st.host_ended || !st.dot_allowed,
                dot_allowed := false, hyphen_allowed := false,
                maybe_last_dot := some i }
  | CharClass.undertilde =>
    StepRes.cont { st with maybe_host := false }
  | CharClass.subdelim =>
    if !st.userinfo_allowed && rh then StepRes.stop { st with host_ended := true }
    else StepRes.cont { st with host_ended := true }
  | CharClass.colon =>
    if !st.userinfo_allowed && !pa then StepRes.stop st
    else StepRes.cont { st with maybe_last_dot := st.last_dot }
  | CharClass.atsign =>
    if !st.userinfo_allowed then StepRes.fail
    else
      StepRes.cont
        { st with userinfo_allowed := false, maybe_last_dot := none,
                  last_dot := none, dot_allowed := false,
                  hyphen_allowed := false, all_numeric := true,
                  maybe_host := true, host_ended := false }
  | CharClass.slash =>
    StepRes.stop (if !rh then { st with endO := some i } else st)
  | CharClass.other =>
    StepRes.stop st

/-- The for-loop of find_authority_end over the remaining characters,
carrying the current byte offset.  none models the early
return (None, None) taken at a second at-sign. -/
def authLoop (rh pa iri : Bool) : List Char → Nat → AuthState → Option AuthState
  | [], _, st => some st
  | c :: cs, i, st =>
    match authStep rh pa iri c i st with
    | StepRes.fail => none
    | StepRes.stop st1 => some st1
    | StepRes.cont st1 => authLoop rh pa iri cs (i + c.utf8Size) st1

/-- Initial loop state of find_authority_end. -/
def initState (ui : Bool) : AuthState :=
  { endO := some 0, maybe_last_dot := none, last_dot := none,
    number_dots := 0, dot_allowed := false, hyphen_allowed := false,
    all_numeric := true, maybe_host := true, host_ended := false,
    userinfo_allowed := ui }

/-- Embedding of valid_tld from src/domains.rs. -/
def valid_tld (tld : List Char) : Bool :=
  2 ≤ ((tld.takeWhile fun c => c.isAlpha).take 2).length

/-- Characters accepted inside an IPv6 literal before the closing
bracket: hex digits, colon and dot. -/
def isIpv6Char (c : Char) : Bool :=
  ('0' ≤ c && c ≤ '9') || ('a' ≤ c && c ≤ 'f') || ('A' ≤ c && c ≤ 'F') ||
  c = ':' || c = '.'

/-- The bracket-seeking loop of find_ipv6_authority_end: returns the
byte offset just after the closing bracket together with the remaining
characters, or none when the literal is invalid. -/
def ipv6Scan : List Char → Nat → Option (Nat × List Char)
  | [], _ => none
  | c :: cs, pos =>
    if c = ']' then some (pos + 1, cs)
    else if isIpv6Char c then ipv6Scan cs (pos + c.utf8Size)
    else none

/-- The port loop of find_ipv6_authority_end: port_end - port_start. -/
def countLeadingDigits : List Char → Nat
  | [] => 0
  | c :: cs => if c.isDigit then countLeadingDigits cs + 1 else 0

/-- Embedding of find_ipv6_authority_end from src/domains.rs.  The
input always starts with an opening bracket (debug_assert in the
source); the scan runs over the characters after it starting at byte
offset 1. -/
def find_ipv6_authority_end (s : List Char) (port_allowed : Bool) :
    Option Nat × Option Nat :=
  match s with
  | [] => (none, none)
  | _ :: rest =>
    match ipv6Scan rest 1 with
    | none => (none, none)
    | some (e, rest2) =>
      match rest2 with
      | [] => (some e, none)
      | c :: rest3 =>
        if c = ':' && port_allowed then
          let n := countLeadingDigits rest3
          if 0 < n then (some (e + 1 + n), none) else (some e, none)
        else (some e, none)

/-- Embedding of find_authority_end from src/domains.rs. -/
def find_authority_end (s : List Char)
    (userinfo_allowed require_host port_allowed iri_parsing_enabled : Bool) :
    Option Nat × Option Nat :=
  if s.head? = some '[' then find_ipv6_authority_end s port_allowed
  else
    match authLoop require_host port_allowed iri_parsing_enabled s 0
        (initState userinfo_allowed) with
    | none => (none, none)
    | some st =>
      if require_host then
        if st.maybe_host then
          if st.all_numeric then
            if st.number_dots ≠ 3 then (none, none) else (st.endO, st.last_dot)
          else
            match st.last_dot with
            | some ld =>
              if valid_tld (suffixFrom s (ld + 1)) then (st.endO, st.last_dot)
              else (none, none)
            | none => (st.endO, st.last_dot)
        else (none, none)
      else (st.endO, st.last_dot)

/-- Invariant of find_authority_end's loop state at byte offset i:
staged and committed dot offsets point at dots strictly before i; end
is always set, bounded by i, and on a boundary; and unless the host has
already been disqualified under require_host, the committed dot lies
strictly before the recorded end. -/
def INV (rh : Bool) (s : List Char) (i : Nat) (st : AuthState) : Prop :=
  (∀ d, st.maybe_last_dot = some d → d < i ∧ charAtByte s d = some '.') ∧
  (∀ d, st.last_dot = some d → d < i ∧ charAtByte s d = some '.') ∧
  (∃ e, st.endO = some e ∧ e ≤ i ∧ IsBoundary s e) ∧
  ((rh = false ∨ st.maybe_host = true) →
     ∀ d, st.last_dot = some d → ∃ e, st.endO = some e ∧ d < e)

/-- State of the loop while scanning an all-alphanumeric userinfo run
from the initial state: only end, dot_allowed, hyphen_allowed and
all_numeric evolve. -/
def uState (j : Nat) (da ha an : Bool) : AuthState :=
  { endO := some j, maybe_last_dot := none, last_dot := none,
    number_dots := 0, dot_allowed := da, hyphen_allowed := ha,
    all_numeric := an, maybe_host := true, host_ended := false,
    userinfo_allowed := true }

/-- State right after the at-sign reset: everything as in the initial
state except that end keeps its value and userinfo is spent. -/
def resetState (j : Nat) : AuthState :=
  { endO := some j, maybe_last_dot := none, last_dot := none,
    number_dots := 0, dot_allowed := false, hyphen_allowed := false,
    all_numeric := true, maybe_host := true, host_ended := false,
    userinfo_allowed := false }

/-- Relation between the loop state after scanning userinfo and an
at-sign (st1, at byte offset shifted by k) and the loop state of a scan
of the remainder alone (st2): all control fields agree, stored offsets
are shifted by k, and the end fields are either shifted or still at
their initial values (k - 1 and 0), in which case a still-plausible
host has committed nothing yet. -/
def SimRel (k : Nat) (st1 st2 : AuthState) : Prop :=
  st1.number_dots = st2.number_dots ∧
  st1.dot_allowed = st2.dot_allowed ∧
  st1.hyphen_allowed = st2.hyphen_allowed ∧
  st1.all_numeric = st2.all_numeric ∧
  st1.maybe_host = st2.maybe_host ∧
  st1.host_ended = st2.host_ended ∧
  st1.userinfo_allowed = false ∧
  st2.userinfo_allowed = false ∧
  st1.maybe_last_dot = st2.maybe_last_dot.map (fun x => k + x) ∧
  st1.last_dot = st2.last_dot.map (fun x => k + x) ∧
  (st1.endO = st2.endO.map (fun x => k + x) ∨
    (st1.endO = some (k - 1) ∧ st2.endO = some 0 ∧
     (st1.maybe_host = true →
        st1.number_dots = 0 ∧ st1.all_numeric = true ∧
        st1.last_dot = none ∧ st1.hyphen_allowed = false ∧
        st1.dot_allowed = false)))

/-! ### Basic facts about byte offsets -/

theorem utf8Len_append (p q : List Char) :
    utf8Len (p ++ q) = utf8Len p + utf8Len q := by
  induction p with
  | nil => simp [utf8Len]
  | cons c cs ih => simp [utf8Len, ih]; omega

theorem utf8Size_pos (c : Char) : 0 < c.utf8Size := Char.utf8Size_pos c

theorem charAtByte_prefix (p : List Char) (c : Char) (q : List Char) :
    charAtByte (p ++ c :: q) (utf8Len p) = some c := by
  induction p with
  | nil => simp [charAtByte, utf8Len]
  | cons b bs ih =>
    have hb := utf8Size_pos b
    simp only [List.cons_append, charAtByte, utf8Len]
    rw [if_neg (by omega), if_neg (by omega)]
    have : b.utf8Size + utf8Len bs - b.utf8Size = utf8Len bs := by omega
    rw [this]
    exact ih

theorem charAtByte_decomp (s : List Char) (d : Nat) (c : Char)
    (h : charAtByte s d = some c) :
    ∃ p q, s = p ++ c :: q ∧ utf8Len p = d := by
  induction s generalizing d with
  | nil => simp [charAtByte] at h
  | cons b bs ih =>
    by_cases h0 : d = 0
    · subst h0
      simp [charAtByte] at h
      exact ⟨[], bs, by simp [h], by simp [utf8Len]⟩
    · simp only [charAtByte, if_neg h0] at h
      by_cases hlt : d < b.utf8Size
      · rw [if_pos hlt] at h; cases h
      · rw [if_neg hlt] at h
        obtain ⟨p, q, hpq, hlen⟩ := ih (d - b.utf8Size) h
        refine ⟨b :: p, q, by simp [hpq], ?_⟩
        simp only [utf8Len, hlen]
        omega

theorem charAtByte_mem (s : List Char) (d : Nat) (c : Char)
    (h : charAtByte s d = some c) : c ∈ s := by
  obtain ⟨p, q, hpq, _⟩ := charAtByte_decomp s d c h
  simp [hpq]

theorem charAtByte_append_cases (p q : List Char) (d : Nat) (c : Char)
    (h : charAtByte (p ++ q) d = some c) :
    d < utf8Len p ∨ (utf8Len p ≤ d ∧ charAtByte q (d - utf8Len p) = some c) := by
  induction p generalizing d with
  | nil => right; simpa [utf8Len] using h
  | cons b bs ih =>
    have hb := utf8Size_pos b
    by_cases h0 : d = 0
    · left; subst h0; simp [utf8Len]; omega
    · simp only [List.cons_append, charAtByte, if_neg h0] at h
      by_cases hlt : d < b.utf8Size
      · rw [if_pos hlt] at h; cases h
      · rw [if_neg hlt] at h
        rcases ih (d - b.utf8Size) h with h1 | ⟨h2, h3⟩
        · left; simp only [utf8Len]; omega
        · right
          constructor
          · simp only [utf8Len]; omega
          · have : d - utf8Len (b :: bs) = d - b.utf8Size - utf8Len bs := by
              simp only [utf8Len]; omega
            rw [this]; exact h3

theorem boundary_le (s : List Char) (n : Nat) (h : IsBoundary s n) :
    n ≤ utf8Len s := by
  obtain ⟨p, q, hpq, hlen⟩ := h
  rw [hpq, utf8Len_append, ← hlen]
  omega

theorem boundary_zero (s : List Char) : IsBoundary s 0 := ⟨[], s, rfl, rfl⟩

theorem suffixFrom_cons (c : Char) (cs : List Char) (n : Nat) :
    suffixFrom (c :: cs) n =
      if n = 0 then c :: cs else suffixFrom cs (n - c.utf8Size) := by
  cases n with
  | zero => simp [suffixFrom]
  | succ m => simp [suffixFrom]

theorem suffixFrom_append (p q : List Char) (m : Nat) :
    suffixFrom (p ++ q) (utf8Len p + m) = suffixFrom q m := by
  induction p with
  | nil => simp only [List.nil_append, utf8Len, Nat.zero_add]
  | cons b bs ih =>
    have hb := utf8Size_pos b
    rw [List.cons_append, suffixFrom_cons, if_neg (by simp [utf8Len]; omega)]
    simp only [utf8Len]
    rw [show b.utf8Size + utf8Len bs + m - b.utf8Size = utf8Len bs + m by omega]
    exact ih

/-! ### Invariant of the reg-name loop -/

theorem inv_mono {rh : Bool} {s : List Char} {i j : Nat} {st : AuthState}
    (h : INV rh s i st) (hij : i ≤ j) : INV rh s j st := by
  obtain ⟨hA, hB, ⟨e0, he0, he0le, he0b⟩, hD⟩ := h
  exact ⟨fun d hd => ⟨lt_of_lt_of_le (hA d hd).1 hij, (hA d hd).2⟩,
    fun d hd => ⟨lt_of_lt_of_le (hB d hd).1 hij, (hB d hd).2⟩,
    ⟨e0, he0, le_trans he0le hij, he0b⟩, hD⟩

theorem initState_inv (rh : Bool) (s : List Char) (ui : Bool) :
    INV rh s 0 (initState ui) := by
  refine ⟨?_, ?_, ⟨0, rfl, le_refl 0, boundary_zero s⟩, ?_⟩
  · intro d hd; exact Option.noConfusion hd
  · intro d hd; exact Option.noConfusion hd
  · intro _ d hd; exact Option.noConfusion hd

theorem classify_dot_eq (c : Char) (h : classify c = CharClass.dot) :
    c = '.' := by
  unfold classify at h
  split_ifs at h with h1 h2 h3 h4 h5 h6 h7 h8 h9 h10
  all_goals assumption

set_option maxHeartbeats 1600000 in
theorem authStep_inv_cont (rh pa iri : Bool) (c : Char) (i : Nat)
    (st : AuthState) (s pre suf : List Char)
    (hs : s = pre ++ c :: suf) (hpre : utf8Len pre = i)
    (hinv : INV rh s i st) :
    ∀ st1, authStep rh pa iri c i st = StepRes.cont st1 →
      INV rh s (i + c.utf8Size) st1 := by
  obtain ⟨hA, hB, ⟨e0, he0, he0le, he0b⟩, hD⟩ := hinv
  have hsz := utf8Size_pos c
  have hbnd1 : IsBoundary s i := ⟨pre, c :: suf, hs, hpre⟩
  have hbnd2 : IsBoundary s (i + c.utf8Size) :=
    ⟨pre ++ [c], suf, by rw [hs]; simp,
     by rw [utf8Len_append, hpre]; simp [utf8Len]⟩
  have hdotchar : charAtByte s i = some c := by
    have h := charAtByte_prefix pre c suf
    rw [← hs, hpre] at h; exact h
  intro st1 hstep
  unfold authStep at hstep
  cases hcl : classify c
  all_goals rw [hcl] at hstep
  all_goals simp only [] at hstep
  case big =>
    by_cases hiri : (!iri) = true
    · rw [if_pos hiri] at hstep; exact StepRes.noConfusion hstep
    · rw [if_neg hiri] at hstep
      by_cases hws : rustIsWhitespace c = true
      · rw [if_pos hws] at hstep; exact StepRes.noConfusion hstep
      · rw [if_neg hws] at hstep
        injection hstep with heq; subst heq
        cases hcan : (!rh || !st.host_ended) with
        | true =>
          refine ⟨fun d hd => ⟨by have := (hA d hd).1; omega, (hA d hd).2⟩,
            fun d hd => ⟨by have := (hA d hd).1; omega, (hA d hd).2⟩,
            ?_, fun _ d hd => ?_⟩
          · exact ⟨i + c.utf8Size, by simp [setEnd, hcan], le_refl _, hbnd2⟩
          · exact ⟨i + c.utf8Size, by simp [setEnd, hcan],
              by have := (hA d hd).1; omega⟩
        | false =>
          simp only [Bool.or_eq_false_iff, Bool.not_eq_false'] at hcan
          refine ⟨fun d hd => ⟨by have := (hA d hd).1; omega, (hA d hd).2⟩,
            fun d hd => ⟨by have := (hA d hd).1; omega, (hA d hd).2⟩,
            ?_, fun hg d hd => ?_⟩
          · exact ⟨e0, by simp [setEnd, hcan.1, hcan.2, he0], by omega, he0b⟩
          · rcases hg with hg | hg
            · rw [hg] at hcan; exact absurd hcan.1 (by simp)
            · have hmh : (st.maybe_host && !st.host_ended) = true := hg
              rw [hcan.2] at hmh; simp at hmh
  case subdelim =>
    by_cases hui : (!st.userinfo_allowed && rh) = true
    · rw [if_pos hui] at hstep; exact StepRes.noConfusion hstep
    · rw [if_neg hui] at hstep
      injection hstep with heq; subst heq
      refine ⟨fun d hd => ⟨by have := (hA d hd).1; omega, (hA d hd).2⟩,
        fun d hd => ⟨by have := (hB d hd).1; omega, (hB d hd).2⟩,
        ⟨e0, he0, by omega, he0b⟩, fun hg d hd => hD hg d hd⟩
  case colon =>
    by_cases hui : (!st.userinfo_allowed && !pa) = true
    · rw [if_pos hui] at hstep; exact StepRes.noConfusion hstep
    · rw [if_neg hui] at hstep
      injection hstep with heq; subst heq
      refine ⟨fun d hd => ⟨by have := (hB d hd).1; omega, (hB d hd).2⟩,
        fun d hd => ⟨by have := (hB d hd).1; omega, (hB d hd).2⟩,
        ⟨e0, he0, by omega, he0b⟩, fun hg d hd => hD hg d hd⟩
  case atsign =>
    by_cases hui : (!st.userinfo_allowed) = true
    · rw [if_pos hui] at hstep; exact StepRes.noConfusion hstep
    · rw [if_neg hui] at hstep
      injection hstep with heq; subst heq
      refine ⟨fun d hd => Option.noConfusion hd,
        fun d hd => Option.noConfusion hd,
        ⟨e0, he0, by omega, he0b⟩, fun _ d hd => Option.noConfusion hd⟩
  case slash => exact StepRes.noConfusion hstep
  case other => exact StepRes.noConfusion hstep
  case dot =>
    injection hstep with heq; subst heq
    refine ⟨fun d hd => ?_,
      fun d hd => ⟨by have := (hB d hd).1; omega, (hB d hd).2⟩,
      ⟨e0, he0, by omega, he0b⟩, fun hg d hd => hD hg d hd⟩
    have hd' : some i = some d := hd
    injection hd' with hid
    subst hid
    refine ⟨by omega, ?_⟩
    rw [← classify_dot_eq c hcl]; exact hdotchar
  case undertilde =>
    injection hstep with heq; subst heq
    refine ⟨fun d hd => ⟨by have := (hA d hd).1; omega, (hA d hd).2⟩,
      fun d hd => ⟨by have := (hB d hd).1; omega, (hB d hd).2⟩,
      ⟨e0, he0, by omega, he0b⟩, fun hg d hd => ?_⟩
    rcases hg with hg | hg
    · exact hD (Or.inl hg) d hd
    · exact absurd hg (by simp)
  case hyphen =>
    injection hstep with heq; subst heq
    cases hcan : (!rh) with
    | true =>
      refine ⟨fun d hd => ⟨by have := (hA d hd).1; omega, (hA d hd).2⟩,
        fun d hd => ⟨by have := (hB d hd).1; omega, (hB d hd).2⟩,
        ?_, fun _ d hd => ?_⟩
      · exact ⟨i + c.utf8Size, by simp [setEnd, hcan], le_refl _, hbnd2⟩
      · exact ⟨i + c.utf8Size, by simp [setEnd, hcan],
          by have := (hB d hd).1; omega⟩
    | false =>
      have hrh : rh = true := by
        cases rh with
        | true => rfl
        | false => simp at hcan
      refine ⟨fun d hd => ⟨by have := (hA d hd).1; omega, (hA d hd).2⟩,
        fun d hd => ⟨by have := (hB d hd).1; omega, (hB d hd).2⟩,
        ?_, fun hg d hd => ?_⟩
      · exact ⟨e0, by simp [setEnd, hcan, he0], by omega, he0b⟩
      · have hmh : st.maybe_host = true := by
          rcases hg with hg | hg
          · rw [hg] at hrh; cases hrh
          · have h2 : (st.maybe_host && st.hyphen_allowed) = true := hg
            exact (Bool.and_eq_true_iff.mp h2).1
        obtain ⟨e, he, hde⟩ := hD (Or.inr hmh) d hd
        exact ⟨e, by simp [setEnd, hcan, he], hde⟩
  case digit =>
    injection hstep with heq; subst heq
    have hld : ∀ d,
        (if st.last_dot ≠ st.maybe_last_dot then st.maybe_last_dot
         else st.last_dot) = some d →
        d < i ∧ charAtByte s d = some '.' := by
      intro d hd
      by_cases hcm : st.last_dot ≠ st.maybe_last_dot
      · rw [if_pos hcm] at hd; exact hA d hd
      · rw [if_neg hcm] at hd; exact hB d hd
    cases hcan : (!rh || !st.host_ended) with
    | true =>
      refine ⟨fun d hd => ⟨by have := (hA d hd).1; omega, (hA d hd).2⟩,
        fun d hd => ⟨by have := (hld d hd).1; omega, (hld d hd).2⟩,
        ?_, fun _ d hd => ?_⟩
      · exact ⟨i + c.utf8Size, by simp [setEnd, hcan], le_refl _, hbnd2⟩
      · exact ⟨i + c.utf8Size, by simp [setEnd, hcan],
          by have := (hld d hd).1; omega⟩
    | false =>
      simp only [Bool.or_eq_false_iff, Bool.not_eq_false'] at hcan
      refine ⟨fun d hd => ⟨by have := (hA d hd).1; omega, (hA d hd).2⟩,
        fun d hd => ⟨by have := (hld d hd).1; omega, (hld d hd).2⟩,
        ?_, fun hg d hd => ?_⟩
      · exact ⟨e0, by simp [setEnd, hcan.1, hcan.2, he0], by omega, he0b⟩
      · rcases hg with hg | hg
        · rw [hg] at hcan; exact absurd hcan.1 (by simp)
        · have hmh : (st.maybe_host && !st.host_ended) = true := hg
          rw [hcan.2] at hmh; simp at hmh
  case letter =>
    injection hstep with heq; subst heq
    cases hcan : (!rh || !st.host_ended) with
    | true =>
      refine ⟨fun d hd => ⟨by have := (hA d hd).1; omega, (hA d hd).2⟩,
        fun d hd => ⟨by have := (hA d hd).1; omega, (hA d hd).2⟩,
        ?_, fun _ d hd => ?_⟩
      · exact ⟨i + c.utf8Size, by simp [setEnd, hcan], le_refl _, hbnd2⟩
      · exact ⟨i + c.utf8Size, by simp [setEnd, hcan],
          by have := (hA d hd).1; omega⟩
    | false =>
      simp only [Bool.or_eq_false_iff, Bool.not_eq_false'] at hcan
      refine ⟨fun d hd => ⟨by have := (hA d hd).1; omega, (hA d hd).2⟩,
        fun d hd => ⟨by have := (hA d hd).1; omega, (hA d hd).2⟩,
        ?_, fun hg d hd => ?_⟩
      · exact ⟨e0, by simp [setEnd, hcan.1, hcan.2, he0], by omega, he0b⟩
      · rcases hg with hg | hg
        · rw [hg] at hcan; exact absurd hcan.1 (by simp)
        · have : (st.maybe_host && !st.host_ended) = true := hg
          rw [hcan.2] at this; simp at this

set_option maxHeartbeats 1600000 in
theorem authStep_inv_stop (rh pa iri : Bool) (c : Char) (i : Nat)
    (st : AuthState) (s pre suf : List Char)
    (hs : s = pre ++ c :: suf) (hpre : utf8Len pre = i)
    (hinv : INV rh s i st) :
    ∀ st1, authStep rh pa iri c i st = StepRes.stop st1 →
      INV rh s i st1 := by
  obtain ⟨hA, hB, ⟨e0, he0, he0le, he0b⟩, hD⟩ := hinv
  have hbnd1 : IsBoundary s i := ⟨pre, c :: suf, hs, hpre⟩
  intro st1 hstep
  unfold authStep at hstep
  cases hcl : classify c
  all_goals rw [hcl] at hstep
  all_goals simp only [] at hstep
  case letter => exact StepRes.noConfusion hstep
  case dot => exact StepRes.noConfusion hstep
  case undertilde => exact StepRes.noConfusion hstep
  case hyphen => exact StepRes.noConfusion hstep
  case digit => exact StepRes.noConfusion hstep
  case big =>
    by_cases hiri : (!iri) = true
    · rw [if_pos hiri] at hstep
      injection hstep with heq; subst heq
      exact ⟨hA, hB, ⟨e0, he0, he0le, he0b⟩, hD⟩
    · rw [if_neg hiri] at hstep
      by_cases hws : rustIsWhitespace c = true
      · rw [if_pos hws] at hstep
        injection hstep with heq; subst heq
        exact ⟨hA, hB, ⟨e0, he0, he0le, he0b⟩, hD⟩
      · rw [if_neg hws] at hstep; exact StepRes.noConfusion hstep
  case subdelim =>
    by_cases hui : (!st.userinfo_allowed && rh) = true
    · rw [if_pos hui] at hstep
      injection hstep with heq; subst heq
      exact ⟨hA, hB, ⟨e0, he0, he0le, he0b⟩, fun hg d hd => hD hg d hd⟩
    · rw [if_neg hui] at hstep; exact StepRes.noConfusion hstep
  case colon =>
    by_cases hui : (!st.userinfo_allowed && !pa) = true
    · rw [if_pos hui] at hstep
      injection hstep with heq; subst heq
      exact ⟨hA, hB, ⟨e0, he0, he0le, he0b⟩, hD⟩
    · rw [if_neg hui] at hstep; exact StepRes.noConfusion hstep
  case atsign =>
    by_cases hui : (!st.userinfo_allowed) = true
    · rw [if_pos hui] at hstep; exact StepRes.noConfusion hstep
    · rw [if_neg hui] at hstep; exact StepRes.noConfusion hstep
  case slash =>
    injection hstep with heq; subst heq
    by_cases hrh : (!rh) = true
    · rw [if_pos hrh]
      refine ⟨hA, hB, ⟨i, rfl, le_refl i, hbnd1⟩, fun _ d hd => ?_⟩
      exact ⟨i, rfl, (hB d hd).1⟩
    · rw [if_neg hrh]
      exact ⟨hA, hB, ⟨e0, he0, he0le, he0b⟩, hD⟩
  case other =>
    injection hstep with heq; subst heq
    exact ⟨hA, hB, ⟨e0, he0, he0le, he0b⟩, hD⟩

theorem authLoop_inv (rh pa iri : Bool) (r : List Char) :
    ∀ (i : Nat) (st : AuthState) (pre s : List Char),
      s = pre ++ r → utf8Len pre = i → INV rh s i st →
      ∀ st1, authLoop rh pa iri r i st = some st1 →
        INV rh s (utf8Len s) st1 := by
  induction r with
  | nil =>
    intro i st pre s hs hpre hinv st1 hloop
    simp only [authLoop, Option.some.injEq] at hloop
    subst hloop
    have hi : i = utf8Len s := by
      rw [hs, utf8Len_append, ← hpre]; simp [utf8Len]
    exact hi ▸ hinv
  | cons c cs ih =>
    intro i st pre s hs hpre hinv st1 hloop
    have hile : i ≤ utf8Len s := by
      rw [hs, utf8Len_append, ← hpre]; omega
    rw [authLoop] at hloop
    cases hstep : authStep rh pa iri c i st with
    | fail => rw [hstep] at hloop; cases hloop
    | stop st2 =>
      rw [hstep] at hloop
      simp only [Option.some.injEq] at hloop
      subst hloop
      exact inv_mono
        (authStep_inv_stop rh pa iri c i st s pre cs hs hpre hinv st2 hstep) hile
    | cont st2 =>
      rw [hstep] at hloop
      exact ih (i + c.utf8Size) st2 (pre ++ [c]) s
        (by rw [hs]; simp)
        (by rw [utf8Len_append, hpre]; simp [utf8Len])
        (authStep_inv_cont rh pa iri c i st s pre cs hs hpre hinv st2 hstep)
        st1 hloop

/-- The loop only ever writes some values into the end field. -/
theorem authLoop_endO_isSome (rh pa iri : Bool) (s : List Char)
    (ui : Bool) (st1 : AuthState)
    (h : authLoop rh pa iri s 0 (initState ui) = some st1) :
    ∃ e, st1.endO = some e := by
  obtain ⟨_, _, ⟨e, he, _, _⟩, _⟩ :=
    authLoop_inv rh pa iri s 0 (initState ui) [] s rfl rfl
      (initState_inv rh s ui) st1 h
  exact ⟨e, he⟩

/-- Everything the invariant yields about a successful run of the
reg-name loop started from the initial state. -/
theorem authLoop_final_inv (rh pa iri : Bool) (s : List Char)
    (ui : Bool) (st1 : AuthState)
    (h : authLoop rh pa iri s 0 (initState ui) = some st1) :
    INV rh s (utf8Len s) st1 :=
  authLoop_inv rh pa iri s 0 (initState ui) [] s rfl rfl
    (initState_inv rh s ui) st1 h

/-! ### Facts about the IPv6 branch -/

theorem isDigit_utf8Size (c : Char) (h : c.isDigit = true) : c.utf8Size = 1 := by
  simp [Char.isDigit] at h
  rw [Char.utf8Size]
  rw [if_pos]
  have h2 := h.2
  rw [UInt32.le_def, BitVec.le_def] at h2 ⊢
  simp at h2 ⊢
  omega

theorem countLeadingDigits_structure (l : List Char) :
    ∃ dp ds, l = dp ++ ds ∧ utf8Len dp = countLeadingDigits l := by
  induction l with
  | nil => exact ⟨[], [], rfl, rfl⟩
  | cons c cs ih =>
    by_cases hc : c.isDigit = true
    · obtain ⟨dp, ds, hsplit, hlen⟩ := ih
      refine ⟨c :: dp, ds, by rw [List.cons_append, ← hsplit], ?_⟩
      simp only [utf8Len, countLeadingDigits, if_pos hc, isDigit_utf8Size c hc,
        hlen]
      omega
    · exact ⟨[], c :: cs, rfl, by simp [utf8Len, countLeadingDigits, hc]⟩

theorem ipv6Scan_structure (cs : List Char) :
    ∀ (pos e : Nat) (rest2 : List Char),
      ipv6Scan cs pos = some (e, rest2) →
      ∃ mid, cs = mid ++ rest2 ∧ e = pos + utf8Len mid := by
  induction cs with
  | nil => intro pos e rest2 h; simp [ipv6Scan] at h
  | cons c cs ih =>
    intro pos e rest2 h
    unfold ipv6Scan at h
    by_cases hc : c = ']'
    · rw [if_pos hc] at h
      simp only [Option.some.injEq, Prod.mk.injEq] at h
      refine ⟨[c], by simp [h.2], ?_⟩
      have : c.utf8Size = 1 := by rw [hc]; rfl
      simp [utf8Len, this, ← h.1]
    · rw [if_neg hc] at h
      by_cases hv : isIpv6Char c = true
      · rw [if_pos hv] at h
        obtain ⟨mid, hsplit, he⟩ := ih (pos + c.utf8Size) e rest2 h
        refine ⟨c :: mid, by rw [List.cons_append, ← hsplit], ?_⟩
        simp only [utf8Len, he]
        omega
      · rw [if_neg hv] at h; cases h

theorem find_ipv6_snd_none (s : List Char) (pa : Bool) :
    (find_ipv6_authority_end s pa).2 = none := by
  unfold find_ipv6_authority_end
  cases s with
  | nil => rfl
  | cons c rest =>
    simp only []
    cases hscan : ipv6Scan rest 1 with
    | none => rfl
    | some er =>
      obtain ⟨e, rest2⟩ := er
      cases rest2 with
      | nil => rfl
      | cons c2 rest3 =>
        simp only []
        by_cases hc : (c2 = ':' && pa) = true
        · rw [if_pos hc]
          by_cases hn : 0 < countLeadingDigits rest3
          · rw [if_pos hn]
          · rw [if_neg hn]
        · rw [if_neg hc]

theorem find_ipv6_fst_bound (s : List Char) (pa : Bool) (e : Nat)
    (hhd : s.head? = some '[') (h : (find_ipv6_authority_end s pa).1 = some e) :
    e ≤ utf8Len s ∧ IsBoundary s e := by
  unfold find_ipv6_authority_end at h
  cases s with
  | nil => cases h
  | cons c rest =>
    have hcbr : c = '[' := by simpa using hhd
    have hc1 : c.utf8Size = 1 := by rw [hcbr]; rfl
    simp only [] at h
    cases hscan : ipv6Scan rest 1 with
    | none => rw [hscan] at h; cases h
    | some er =>
      obtain ⟨e0, rest2⟩ := er
      rw [hscan] at h
      obtain ⟨mid, hsplit, he0⟩ := ipv6Scan_structure rest 1 e0 rest2 hscan
      have hbe0 : IsBoundary (c :: rest) e0 := by
        refine ⟨c :: mid, rest2, by rw [hsplit]; rfl, ?_⟩
        simp only [utf8Len, he0, hc1]
      have hle0 : e0 ≤ utf8Len (c :: rest) := boundary_le _ _ hbe0
      cases rest2 with
      | nil =>
        simp only [Option.some.injEq] at h
        subst h
        exact ⟨hle0, hbe0⟩
      | cons c2 rest3 =>
        simp only [] at h
        by_cases hcp : (c2 = ':' && pa) = true
        · rw [if_pos hcp] at h
          by_cases hn : 0 < countLeadingDigits rest3
          · rw [if_pos hn] at h
            simp only [Option.some.injEq] at h
            subst h
            obtain ⟨dp, ds, hsplit3, hlen3⟩ := countLeadingDigits_structure rest3
            have hc2 : c2 = ':' := by
              simp only [Bool.and_eq_true, decide_eq_true_eq] at hcp
              exact hcp.1
            have hc2sz : c2.utf8Size = 1 := by rw [hc2]; rfl
            have hb : IsBoundary (c :: rest)
                (e0 + 1 + countLeadingDigits rest3) := by
              refine ⟨c :: mid ++ c2 :: dp, ds, ?_, ?_⟩
              · rw [hsplit, hsplit3]; simp
              · have := utf8Len_append (c :: mid) (c2 :: dp)
                simp only [List.cons_append]
                rw [show (c :: (mid ++ c2 :: dp)) = (c :: mid) ++ (c2 :: dp)
                      by simp, this]
                simp only [utf8Len, hc2sz, he0, hlen3, hc1]
                omega
            exact ⟨boundary_le _ _ hb, hb⟩
          · rw [if_neg hn] at h
            simp only [Option.some.injEq] at h
            subst h
            exact ⟨hle0, hbe0⟩
        · rw [if_neg hcp] at h
          simp only [Option.some.injEq] at h
          subst h
          exact ⟨hle0, hbe0⟩

/-! ### Inversion of find_authority_end's post-processing -/

theorem find_fst_inversion (s : List Char) (ui rh pa iri : Bool)
    (hhd : ¬ s.head? = some '[') (e : Nat)
    (h : (find_authority_end s ui rh pa iri).1 = some e) :
    ∃ st, authLoop rh pa iri s 0 (initState ui) = some st ∧
      st.endO = some e := by
  unfold find_authority_end at h
  rw [if_neg hhd] at h
  cases hloop : authLoop rh pa iri s 0 (initState ui) with
  | none => rw [hloop] at h; cases h
  | some st =>
    rw [hloop] at h
    simp only [] at h
    refine ⟨st, rfl, ?_⟩
    by_cases hrh : rh = true
    · rw [if_pos hrh] at h
      by_cases hmh : st.maybe_host = true
      · rw [if_pos hmh] at h
        by_cases han : st.all_numeric = true
        · rw [if_pos han] at h
          by_cases hnd : st.number_dots ≠ 3
          · rw [if_pos hnd] at h; cases h
          · rw [if_neg hnd] at h; exact h
        · rw [if_neg han] at h
          cases hld : st.last_dot with
          | none => rw [hld] at h; exact h
          | some ld0 =>
            rw [hld] at h
            simp only [] at h
            by_cases htld : valid_tld (suffixFrom s (ld0 + 1)) = true
            · rw [if_pos htld] at h; exact h
            · rw [if_neg htld] at h; cases h
      · rw [if_neg hmh] at h; cases h
    · rw [if_neg hrh] at h; exact h

theorem find_snd_inversion (s : List Char) (ui rh pa iri : Bool)
    (hhd : ¬ s.head? = some '[') (d : Nat)
    (h : (find_authority_end s ui rh pa iri).2 = some d) :
    ∃ st, authLoop rh pa iri s 0 (initState ui) = some st ∧
      st.last_dot = some d ∧
      (find_authority_end s ui rh pa iri).1 = st.endO ∧
      (rh = true → st.maybe_host = true) := by
  unfold find_authority_end at h ⊢
  rw [if_neg hhd] at h ⊢
  cases hloop : authLoop rh pa iri s 0 (initState ui) with
  | none => rw [hloop] at h; cases h
  | some st =>
    rw [hloop] at h
    simp only [] at h ⊢
    refine ⟨st, rfl, ?_⟩
    by_cases hrh : rh = true
    · rw [if_pos hrh] at h ⊢
      by_cases hmh : st.maybe_host = true
      · rw [if_pos hmh] at h ⊢
        by_cases han : st.all_numeric = true
        · rw [if_pos han] at h ⊢
          by_cases hnd : st.number_dots ≠ 3
          · rw [if_pos hnd] at h; cases h
          · rw [if_neg hnd] at h ⊢; exact ⟨h, rfl, fun _ => hmh⟩
        · rw [if_neg han] at h ⊢
          cases hld : st.last_dot with
          | none => rw [hld] at h; simp only [] at h; cases h
          | some ld0 =>
            rw [hld] at h
            simp only [] at h ⊢
            by_cases htld : valid_tld (suffixFrom s (ld0 + 1)) = true
            · rw [if_pos htld] at h ⊢
              simp only [Option.some.injEq] at h
              exact ⟨by rw [h], rfl, fun _ => hmh⟩
            · rw [if_neg htld] at h; simp only [] at h; cases h
      · rw [if_neg hmh] at h; cases h
    · rw [if_neg hrh] at h ⊢
      exact ⟨h, rfl, fun hc => absurd hc hrh⟩

/-! ### Claim theorems -/

/-- C10: for every call on an input not beginning with a bracket, a
result (Some e, Some d) has the dot offset strictly inside the span,
d < e, and the byte at offset d is a dot, so slicing at d + 1 is safe. -/
theorem claim_C10 (s : List Char) (ui rh pa iri : Bool) (e d : Nat)
    (hhd : ¬ s.head? = some '[')
    (hfind : find_authority_end s ui rh pa iri = (some e, some d)) :
    d < e ∧ charAtByte s d = some '.' := by
  have hsnd : (find_authority_end s ui rh pa iri).2 = some d := by
    rw [hfind]
  obtain ⟨st, hloop, hld, hfst, hmh⟩ :=
    find_snd_inversion s ui rh pa iri hhd d hsnd
  obtain ⟨_, hB, _, hD⟩ := authLoop_final_inv rh pa iri s ui st hloop
  have hguard : rh = false ∨ st.maybe_host = true := by
    cases rh with
    | false => exact Or.inl rfl
    | true => exact Or.inr (hmh rfl)
  obtain ⟨e1, he1, hde⟩ := hD hguard d hld
  have hee : some e = some e1 := by
    rw [← he1, ← hfst, hfind]
  injection hee with hee
  exact ⟨hee ▸ hde, (hB d hld).2⟩

theorem claim_C10_witness :
    1 < 4 ∧ charAtByte ("a.bc".data) 1 = some '.' :=
  claim_C10 ("a.bc".data) false true false true 4 1 (by decide) (by decide)

/-- C9: find_authority_end never fails and respects UTF-8 boundaries:
on any input and flags, a returned end offset is at most the byte
length of the input and on a code-point boundary, and a returned last
dot offset is strictly inside the input, sits on a boundary, points at
a dot, and d + 1 is again a boundary (so the TLD slice is safe). -/
theorem claim_C9 (s : List Char) (ui rh pa iri : Bool) :
    (∀ e, (find_authority_end s ui rh pa iri).1 = some e →
       e ≤ utf8Len s ∧ IsBoundary s e) ∧
    (∀ d, (find_authority_end s ui rh pa iri).2 = some d →
       d < utf8Len s ∧ IsBoundary s d ∧ IsBoundary s (d + 1) ∧
       charAtByte s d = some '.') := by
  by_cases hhd : s.head? = some '['
  · constructor
    · intro e he
      unfold find_authority_end at he
      rw [if_pos hhd] at he
      exact find_ipv6_fst_bound s pa e hhd he
    · intro d hd
      unfold find_authority_end at hd
      rw [if_pos hhd] at hd
      rw [find_ipv6_snd_none s pa] at hd
      cases hd
  · constructor
    · intro e he
      obtain ⟨st, hloop, hend⟩ := find_fst_inversion s ui rh pa iri hhd e he
      obtain ⟨_, _, ⟨e1, he1, hle, hb⟩, _⟩ :=
        authLoop_final_inv rh pa iri s ui st hloop
      have hee : some e = some e1 := by rw [← he1, ← hend]
      injection hee with hee
      subst hee
      exact ⟨hle, hb⟩
    · intro d hd
      obtain ⟨st, hloop, hld, _, _⟩ :=
        find_snd_inversion s ui rh pa iri hhd d hd
      obtain ⟨_, hB, _, _⟩ := authLoop_final_inv rh pa iri s ui st hloop
      obtain ⟨hdlt, hdchar⟩ := hB d hld
      obtain ⟨p, q, hpq, hlen⟩ := charAtByte_decomp s d '.' hdchar
      refine ⟨lt_of_lt_of_le hdlt (le_refl _), ⟨p, '.' :: q, hpq, hlen⟩, ?_, hdchar⟩
      refine ⟨p ++ ['.'], q, by rw [hpq]; simp, ?_⟩
      rw [utf8Len_append, hlen]
      rfl

theorem claim_C9_witness :
    (11 ≤ utf8Len ("example.com".data) ∧ IsBoundary ("example.com".data) 11) ∧
    (7 < utf8Len ("example.com".data) ∧ IsBoundary ("example.com".data) 7 ∧
     IsBoundary ("example.com".data) 8 ∧
     charAtByte ("example.com".data) 7 = some '.') :=
  ⟨(claim_C9 ("example.com".data) false true false true).1 11 (by decide),
   (claim_C9 ("example.com".data) false true false true).2 7 (by decide)⟩

/-- If the byte at offset d in pre ++ colon-then-post is a dot and post
is dot-free, the offset lies inside pre. -/
theorem dot_offset_before_colon (pre post : List Char) (d : Nat)
    (hpost : '.' ∉ post)
    (h : charAtByte (pre ++ ':' :: post) d = some '.') :
    d < utf8Len pre := by
  rcases charAtByte_append_cases pre (':' :: post) d '.' h with h1 | ⟨h2, h3⟩
  · exact h1
  · exfalso
    have hmem : '.' ∈ ':' :: post := charAtByte_mem _ _ _ h3
    rcases List.mem_cons.mp hmem with hmem | hmem
    · cases hmem
    · exact hpost hmem

/-- C8 fails as stated: scanning 1.2:3.ab in reg-name mode with a port
allowed commits the dot at offset 5, which lies after the first colon
at offset 3. -/
theorem claim_C8_counterexample :
    find_authority_end ("1.2:3.ab".data) false true true true =
      (some 8, some 5) ∧
    charAtByte ("1.2:3.ab".data) 3 = some ':' ∧
    (∀ j, j < 3 → charAtByte ("1.2:3.ab".data) j ≠ some ':') ∧
    ¬ (5 < 3) := by
  refine ⟨by decide, by decide, ?_, by decide⟩
  intro j hj
  interval_cases j <;> decide

/-- C8 amended: the freeze at a colon only discards the staged dot; a
dot scanned after the colon can still be committed.  What holds is:
if no dot occurs after the (first) colon, a returned last_dot offset
lies strictly before that colon. -/
theorem claim_C8_amended (pre post : List Char) (ui rh pa iri : Bool) (d : Nat)
    (hhd : ¬ (pre ++ ':' :: post).head? = some '[')
    (hpost : '.' ∉ post)
    (hsnd : (find_authority_end (pre ++ ':' :: post) ui rh pa iri).2 = some d) :
    d < utf8Len pre := by
  obtain ⟨st, hloop, hld, _, _⟩ :=
    find_snd_inversion (pre ++ ':' :: post) ui rh pa iri hhd d hsnd
  obtain ⟨_, hB, _, _⟩ :=
    authLoop_final_inv rh pa iri (pre ++ ':' :: post) ui st hloop
  exact dot_offset_before_colon pre post d hpost (hB d hld).2

theorem claim_C8_amended_witness : 1 < utf8Len ("a.bc".data) :=
  claim_C8_amended ("a.bc".data) ("de".data) false true true true 1
    (by decide) (by decide) (by decide)

/-- C1: with require_host, a plausible non-numeric host with a
committed last dot at offset d is accepted exactly when the text after
the dot passes valid_tld; and valid_tld holds iff the first two
characters exist and are both ASCII alphabetic. -/
theorem claim_C1 :
    (∀ (s : List Char) (ui pa iri : Bool) (st : AuthState) (d : Nat),
       ¬ s.head? = some '[' →
       authLoop true pa iri s 0 (initState ui) = some st →
       st.maybe_host = true → st.all_numeric = false → st.last_dot = some d →
       (valid_tld (suffixFrom s (d + 1)) = false →
          find_authority_end s ui true pa iri = (none, none)) ∧
       (valid_tld (suffixFrom s (d + 1)) = true →
          find_authority_end s ui true pa iri = (st.endO, some d) ∧
          find_authority_end s ui true pa iri ≠ (none, none))) ∧
    (∀ t : List Char, valid_tld t = true ↔
       ∃ c₁ c₂ t', t = c₁ :: c₂ :: t' ∧ c₁.isAlpha = true ∧ c₂.isAlpha = true) := by
  constructor
  · intro s ui pa iri st d hhd hloop hmh han hld
    have hfind : find_authority_end s ui true pa iri =
        (if valid_tld (suffixFrom s (d + 1)) then (st.endO, st.last_dot)
         else (none, none)) := by
      unfold find_authority_end
      rw [if_neg hhd, hloop]
      simp only []
      rw [if_pos trivial, if_pos hmh, if_neg (by simp [han]), hld]
    constructor
    · intro htld
      rw [hfind, if_neg (by simp [htld])]
    · intro htld
      obtain ⟨e, he⟩ := authLoop_endO_isSome true pa iri s ui st hloop
      rw [hfind, if_pos htld, hld]
      exact ⟨rfl, by simp [he]⟩
  · intro t
    match t with
    | [] => simp [valid_tld]
    | [c] =>
      by_cases hc : c.isAlpha = true <;>
        simp [valid_tld, List.takeWhile, hc]
    | c₁ :: c₂ :: t' =>
      constructor
      · intro hv
        by_cases h1 : c₁.isAlpha = true
        · by_cases h2 : c₂.isAlpha = true
          · exact ⟨c₁, c₂, t', rfl, h1, h2⟩
          · exfalso
            simp [valid_tld, List.takeWhile, h1, h2] at hv
        · exfalso
          simp [valid_tld, List.takeWhile, h1] at hv
      · rintro ⟨d₁, d₂, t₂, heq, ha1, ha2⟩
        injection heq with he1 heq
        injection heq with he2 _
        subst he1; subst he2
        simp [valid_tld, List.takeWhile, ha1, ha2]

theorem claim_C1_witness :
    find_authority_end ("ab.cd".data) false true false true =
      (some 5, some 2) ∧
    find_authority_end ("ab.cd".data) false true false true ≠ (none, none) :=
  have h := (claim_C1.1 ("ab.cd".data) false false true
    ⟨some 5, some 2, some 2, 0, true, true, false, true, false, false⟩ 2
    (by decide) (by decide) rfl rfl rfl).2 (by decide)
  ⟨h.1, h.2⟩

/-- C2: with require_host, a plausible all-numeric host is accepted
exactly when three dots were committed (the IPv4 heuristic); in
particular 1.2.3.4 is accepted and 1.2.3 is rejected. -/
theorem claim_C2 :
    (∀ (s : List Char) (ui pa iri : Bool) (st : AuthState),
       ¬ s.head? = some '[' →
       authLoop true pa iri s 0 (initState ui) = some st →
       st.maybe_host = true → st.all_numeric = true →
       (st.number_dots = 3 →
          find_authority_end s ui true pa iri = (st.endO, st.last_dot) ∧
          ∃ e, (find_authority_end s ui true pa iri).1 = some e) ∧
       (st.number_dots ≠ 3 →
          find_authority_end s ui true pa iri = (none, none))) ∧
    find_authority_end ("1.2.3.4".data) false true false true =
      (some 7, some 5) ∧
    find_authority_end ("1.2.3".data) false true false true = (none, none) := by
  refine ⟨?_, by decide, by decide⟩
  intro s ui pa iri st hhd hloop hmh han
  have hfind : find_authority_end s ui true pa iri =
      (if st.number_dots ≠ 3 then (none, none)
       else (st.endO, st.last_dot)) := by
    unfold find_authority_end
    rw [if_neg hhd, hloop]
    simp only []
    rw [if_pos trivial, if_pos hmh, if_pos han]
  constructor
  · intro hnd
    obtain ⟨e, he⟩ := authLoop_endO_isSome true pa iri s ui st hloop
    rw [hfind, if_neg (by simp [hnd])]
    exact ⟨rfl, by simp [he]⟩
  · intro hnd
    rw [hfind, if_pos hnd]

theorem claim_C2_witness :
    find_authority_end ("1.2.3.4".data) false true false true =
      (some 7, some 5) ∧
    find_authority_end ("1.2.3".data) false true false true = (none, none) :=
  ⟨((claim_C2.1 ("1.2.3.4".data) false false true
      ⟨some 7, some 5, some 5, 3, true, true, true, true, false, false⟩
      (by decide) (by decide) rfl rfl).1 rfl).1,
   (claim_C2.1 ("1.2.3".data) false false true
      ⟨some 5, some 3, some 3, 2, true, true, true, true, false, false⟩
      (by decide) (by decide) rfl rfl).2 (by decide)⟩

/-- C3: an at-sign scanned while userinfo is not allowed aborts the
whole authority: the loop returns the early failure, and the failure
makes find_authority_end return (None, None) regardless of
require_host. -/
theorem claim_C3 :
    (∀ (rh pa iri : Bool) (r : List Char) (i : Nat) (st : AuthState),
       st.userinfo_allowed = false →
       authLoop rh pa iri ('@' :: r) i st = none) ∧
    (∀ (s : List Char) (ui rh pa iri : Bool), ¬ s.head? = some '[' →
       authLoop rh pa iri s 0 (initState ui) = none →
       find_authority_end s ui rh pa iri = (none, none)) := by
  constructor
  · intro rh pa iri r i st hui
    rw [authLoop]
    have hstep : authStep rh pa iri '@' i st = StepRes.fail := by
      unfold authStep
      have hcl : classify '@' = CharClass.atsign := by decide
      rw [hcl]
      simp only []
      rw [if_pos (by simp [hui])]
    rw [hstep]
  · intro s ui rh pa iri hhd hloop
    unfold find_authority_end
    rw [if_neg hhd, hloop]

theorem claim_C3_witness :
    find_authority_end ('@' :: "x".data) false true false true =
      (none, none) :=
  claim_C3.2 ('@' :: "x".data) false true false true (by decide)
    (claim_C3.1 true false true ("x".data) 0 (initState false) rfl)

/-- C5 fails as stated: even without require_host, an at-sign scanned
while userinfo is disallowed makes the call return (None, None), so
the end component is not always Some. -/
theorem claim_C5_counterexample :
    find_authority_end ("@".data) false false false false = (none, none) ∧
    ¬ ("@".data).head? = some '[' := by decide

/-- C5 amended: without require_host, whenever the loop does not take
the at-sign early failure, the call returns the accumulated
(end, last_dot) unchanged, and the end component is Some. -/
theorem claim_C5_amended (s : List Char) (ui pa iri : Bool) (st : AuthState)
    (hhd : ¬ s.head? = some '[')
    (hloop : authLoop false pa iri s 0 (initState ui) = some st) :
    find_authority_end s ui false pa iri = (st.endO, st.last_dot) ∧
    ∃ e, (find_authority_end s ui false pa iri).1 = some e := by
  have hfind : find_authority_end s ui false pa iri =
      (st.endO, st.last_dot) := by
    unfold find_authority_end
    rw [if_neg hhd, hloop]
    simp
  refine ⟨hfind, ?_⟩
  obtain ⟨e, he⟩ := authLoop_endO_isSome false pa iri s ui st hloop
  rw [hfind]
  exact ⟨e, he⟩

theorem claim_C5_witness :
    ∃ e, (find_authority_end ("foo/bar".data) true false true true).1 =
      some e :=
  (claim_C5_amended ("foo/bar".data) true true true
    ⟨some 3, none, none, 0, true, true, false, true, false, true⟩
    (by decide) (by decide)).2

/-- The claim's characterisation of an email local-part character:
ASCII atext, or a code point at least U+0080 that is not Unicode
whitespace.  Stated following the specification's words, to be compared
with the implementation. -/
def emailLocalCharSpec (c : Char) : Bool :=
  (('a' ≤ c && c ≤ 'z') || ('A' ≤ c && c ≤ 'Z') || ('0' ≤ c && c ≤ '9') ||
   c = '!' || c = '#' || c = '$' || c = '%' || c = '&' || c.val = 39 ||
   c = '*' || c = '+' || c = '-' || c = '/' || c = '=' || c = '?' ||
   c = '^' || c = '_' || c.val = 96 || c.val = 123 || c = '|' ||
   c.val = 125 || c = '~') ||
  (0x80 ≤ c.val && !(rustIsWhitespace c))

/-- C7: is_email_local_char accepts exactly ASCII atext plus non-ASCII
non-whitespace code points; in particular the eight listed Unicode
whitespace code points are rejected and act as word boundaries. -/
theorem claim_C7 :
    (∀ c : Char, is_email_local_char c = emailLocalCharSpec c) ∧
    is_email_local_char (Char.ofNat 0xA0) = false ∧
    is_email_local_char (Char.ofNat 0x1680) = false ∧
    is_email_local_char (Char.ofNat 0x2003) = false ∧
    is_email_local_char (Char.ofNat 0x2028) = false ∧
    is_email_local_char (Char.ofNat 0x2029) = false ∧
    is_email_local_char (Char.ofNat 0x202F) = false ∧
    is_email_local_char (Char.ofNat 0x205F) = false ∧
    is_email_local_char (Char.ofNat 0x3000) = false := by
  refine ⟨?_, by decide, by decide, by decide, by decide, by decide,
    by decide, by decide, by decide⟩
  intro c
  unfold is_email_local_char emailLocalCharSpec
  by_cases h : (('a' ≤ c && c ≤ 'z') || ('A' ≤ c && c ≤ 'Z') ||
      ('0' ≤ c && c ≤ '9') ||
      c = '!' || c = '#' || c = '$' || c = '%' || c = '&' || c.val = 39 ||
      c = '*' || c = '+' || c = '-' || c = '/' || c = '=' || c = '?' ||
      c = '^' || c = '_' || c.val = 96 || c.val = 123 || c = '|' ||
      c.val = 125 || c = '~') = true
  · rw [if_pos h, h, Bool.true_or]
  · rw [if_neg h]
    have hb : (('a' ≤ c && c ≤ 'z') || ('A' ≤ c && c ≤ 'Z') ||
        ('0' ≤ c && c ≤ '9') ||
        c = '!' || c = '#' || c = '$' || c = '%' || c = '&' || c.val = 39 ||
        c = '*' || c = '+' || c = '-' || c = '/' || c = '=' || c = '?' ||
        c = '^' || c = '_' || c.val = 96 || c.val = 123 || c = '|' ||
        c.val = 125 || c = '~') = false := by
      cases hx : (('a' ≤ c && c ≤ 'z') || ('A' ≤ c && c ≤ 'Z') ||
          ('0' ≤ c && c ≤ '9') ||
          c = '!' || c = '#' || c = '$' || c = '%' || c = '&' || c.val = 39 ||
          c = '*' || c = '+' || c = '-' || c = '/' || c = '=' || c = '?' ||
          c = '^' || c = '_' || c.val = 96 || c.val = 123 || c = '|' ||
          c.val = 125 || c = '~') with
      | false => rfl
      | true => exact absurd hx h
    rw [hb, Bool.false_or]

theorem ipv6Scan_none_iff (cs : List Char) : ∀ pos,
    ipv6Scan cs pos = none ↔
      ((']' ∉ cs) ∨
        ∃ c ∈ cs.takeWhile (fun x => x != ']'), isIpv6Char c = false) := by
  induction cs with
  | nil => intro pos; simp [ipv6Scan]
  | cons c cs ih =>
    intro pos
    unfold ipv6Scan
    by_cases hc : c = ']'
    · rw [if_pos hc]
      subst hc
      simp [List.takeWhile_cons]
    · rw [if_neg hc]
      by_cases hv : isIpv6Char c = true
      · rw [if_pos hv]
        rw [ih (pos + c.utf8Size)]
        constructor
        · rintro (hm | ⟨x, hx, hxv⟩)
          · left
            intro hmem
            rcases List.mem_cons.mp hmem with h1 | h1
            · exact hc h1.symm
            · exact hm h1
          · right
            refine ⟨x, ?_, hxv⟩
            rw [List.takeWhile_cons, if_pos (by simp [hc])]
            exact List.mem_cons_of_mem c hx
        · rintro (hm | ⟨x, hx, hxv⟩)
          · left; intro hmem; exact hm (List.mem_cons_of_mem c hmem)
          · rw [List.takeWhile_cons, if_pos (by simp [hc])] at hx
            rcases List.mem_cons.mp hx with h1 | h1
            · subst h1; exact Or.inr ⟨x, by rw [hxv] at hv; cases hv⟩
            · exact Or.inr ⟨x, h1, hxv⟩
      · rw [if_neg hv]
        simp only [true_iff]
        right
        refine ⟨c, ?_, by simpa using hv⟩
        rw [List.takeWhile_cons, if_pos (by simp [hc])]
        exact List.mem_cons_self c _

theorem ipv6Scan_good (pre : List Char) : ∀ (post : List Char) (pos : Nat),
    (∀ c ∈ pre, isIpv6Char c = true) → (']' ∉ pre) →
    ipv6Scan (pre ++ ']' :: post) pos =
      some (pos + utf8Len pre + 1, post) := by
  induction pre with
  | nil => intro post pos _ _; simp [ipv6Scan, utf8Len]
  | cons c pre ih =>
    intro post pos hval hmem
    have hc : ¬ c = ']' := fun h => hmem (by rw [h]; exact List.mem_cons_self _ _)
    rw [List.cons_append]
    unfold ipv6Scan
    rw [if_neg hc, if_pos (hval c (List.mem_cons_self c pre))]
    rw [ih post (pos + c.utf8Size) (fun x hx => hval x (List.mem_cons_of_mem c hx))
      (fun h => hmem (List.mem_cons_of_mem c h))]
    simp only [utf8Len]
    rw [show pos + c.utf8Size + utf8Len pre + 1 =
      pos + (c.utf8Size + utf8Len pre) + 1 by omega]

theorem first_close_decomp (l : List Char) (hmem : ']' ∈ l) :
    ∃ post, l.dropWhile (fun x => x != ']') = ']' :: post := by
  induction l with
  | nil => cases hmem
  | cons c cs ih =>
    by_cases hc : c = ']'
    · subst hc
      exact ⟨cs, by rw [List.dropWhile_cons, if_neg (by simp)]⟩
    · rcases List.mem_cons.mp hmem with h1 | h1
      · exact absurd h1.symm hc
      · obtain ⟨post, hpost⟩ := ih h1
        exact ⟨post, by rw [List.dropWhile_cons, if_pos (by simp [hc])]; exact hpost⟩

/-- C6: in IPv6 literal mode the call fails exactly when there is no
closing bracket or an invalid character occurs before the first one;
otherwise the end is just after the bracket, extended past a colon and
following digits when a port is allowed, and last_dot is always None. -/
theorem claim_C6 (s : List Char) (ui rh pa iri : Bool)
    (hhd : s.head? = some '[') :
    ((find_authority_end s ui rh pa iri = (none, none)) ↔
      (']' ∉ s.tail ∨
        ∃ c ∈ s.tail.takeWhile (fun x => x != ']'), isIpv6Char c = false)) ∧
    (find_authority_end s ui rh pa iri).2 = none ∧
    (∀ post, s.tail.dropWhile (fun x => x != ']') = ']' :: post →
       (∀ c ∈ s.tail.takeWhile (fun x => x != ']'), isIpv6Char c = true) →
       ((¬ (pa = true ∧ post.head? = some ':')) →
          (find_authority_end s ui rh pa iri).1 =
            some (utf8Len (s.tail.takeWhile (fun x => x != ']')) + 2)) ∧
       (∀ rest3, post = ':' :: rest3 → pa = true →
          (countLeadingDigits rest3 = 0 →
             (find_authority_end s ui rh pa iri).1 =
               some (utf8Len (s.tail.takeWhile (fun x => x != ']')) + 2)) ∧
          (0 < countLeadingDigits rest3 →
             (find_authority_end s ui rh pa iri).1 =
               some (utf8Len (s.tail.takeWhile (fun x => x != ']')) + 2 + 1 +
                 countLeadingDigits rest3)))) := by
  cases s with
  | nil => cases hhd
  | cons c0 rest =>
  have hc0 : c0 = '[' := by simpa using hhd
  have hfind : find_authority_end (c0 :: rest) ui rh pa iri =
      find_ipv6_authority_end (c0 :: rest) pa := by
    unfold find_authority_end
    rw [if_pos (by simp [hc0])]
  refine ⟨?_, ?_, ?_⟩
  · rw [hfind]
    unfold find_ipv6_authority_end
    simp only [List.tail_cons]
    cases hscan : ipv6Scan rest 1 with
    | none =>
      simp only [true_iff]
      exact (ipv6Scan_none_iff rest 1).mp hscan
    | some er =>
      obtain ⟨e, rest2⟩ := er
      have hnotnone : ¬ ipv6Scan rest 1 = none := by rw [hscan]; simp
      rw [iff_comm, ← ipv6Scan_none_iff rest 1]
      constructor
      · intro h; exact absurd h hnotnone
      · intro h
        exfalso
        revert h
        cases rest2 with
        | nil => simp
        | cons c2 rest3 =>
          simp only []
          by_cases hcp : (c2 = ':' && pa) = true
          · rw [if_pos hcp]
            by_cases hn : 0 < countLeadingDigits rest3
            · rw [if_pos hn]; simp
            · rw [if_neg hn]; simp
          · rw [if_neg hcp]; simp
  · rw [hfind]; exact find_ipv6_snd_none _ pa
  · intro post hdrop hvalid
    simp only [List.tail_cons] at hdrop hvalid ⊢
    have hsplit : rest = rest.takeWhile (fun x => x != ']') ++ ']' :: post := by
      conv_lhs => rw [← List.takeWhile_append_dropWhile
        (p := fun x => x != ']') (l := rest)]
      rw [hdrop]
    have hnm : ']' ∉ rest.takeWhile (fun x => x != ']') := by
      intro hmem
      have := List.mem_takeWhile_imp hmem
      simp at this
    have hscan : ipv6Scan rest 1 =
        some (1 + utf8Len (rest.takeWhile (fun x => x != ']')) + 1, post) := by
      conv_lhs => rw [hsplit]
      exact ipv6Scan_good _ post 1 hvalid hnm
    rw [hfind]
    unfold find_ipv6_authority_end
    simp only []
    rw [hscan]
    have harith : 1 + utf8Len (rest.takeWhile (fun x => x != ']')) + 1 =
        utf8Len (rest.takeWhile (fun x => x != ']')) + 2 := by omega
    constructor
    · intro hno
      cases post with
      | nil => simp only []; rw [harith]
      | cons c2 rest3 =>
        simp only []
        have hcp : ¬ (c2 = ':' && pa) = true := by
          intro hx
          simp only [Bool.and_eq_true, decide_eq_true_eq] at hx
          exact hno ⟨hx.2, by simp [hx.1]⟩
        rw [if_neg hcp, harith]
    · intro rest3 hpost hpa
      subst hpost
      simp only []
      rw [if_pos (by simp [hpa])]
      constructor
      · intro hn
        rw [if_neg (by omega), harith]
      · intro hn
        rw [if_pos hn, harith]

theorem claim_C6_witness :
    (find_authority_end ("[::1]:8080".data) true false true true).1 =
      some 10 ∧
    (find_authority_end ("[::1]:8080".data) true false true true).2 = none :=
  have h := claim_C6 ("[::1]:8080".data) true false true true (by decide)
  ⟨by
    have h2 := ((h.2.2 (":8080".data) (by decide) (by decide)).2
      ("8080".data) (by decide) rfl).2 (by decide)
    simpa using h2,
   h.2.1⟩

/-! ### Userinfo reset: scanning an alphanumeric run, then an at-sign -/

theorem classify_alnum (c : Char) (h : isAlnumAscii c = true) :
    classify c = CharClass.letter ∨ classify c = CharClass.digit := by
  by_cases hL : (('a' ≤ c && c ≤ 'z') || ('A' ≤ c && c ≤ 'Z')) = true
  · left; unfold classify; rw [if_pos hL]
  · right
    have hD : ('0' ≤ c && c ≤ '9') = true := by
      unfold isAlnumAscii at h
      rcases Bool.or_eq_true_iff.mp h with h1 | h1
      · rcases Bool.or_eq_true_iff.mp h1 with h2 | h2
        · exact absurd (Bool.or_eq_true_iff.mpr (Or.inl h2)) hL
        · exact absurd (Bool.or_eq_true_iff.mpr (Or.inr h2)) hL
      · exact h1
    have h9 : c.val ≤ ('9' : Char).val := by
      have := (Bool.and_eq_true_iff.mp hD).2
      simpa [Char.le_def] using this
    have hnb : ¬ (0x80 ≤ c.val) := by
      intro hc
      rw [UInt32.le_def, BitVec.le_def] at h9 hc
      simp at h9 hc
      omega
    unfold classify
    rw [if_neg hL, if_neg hnb, if_pos hD]

theorem alnum_ne_lbracket (c : Char) (h : isAlnumAscii c = true) :
    ¬ c = '[' := by
  intro hc
  rw [hc] at h
  exact absurd h (by decide)

theorem authStep_uState_letter (pa iri : Bool) (c : Char) (i j : Nat)
    (da ha an : Bool) (h : classify c = CharClass.letter) :
    authStep true pa iri c i (uState j da ha an) =
      StepRes.cont (uState (i + c.utf8Size) true true false) := by
  unfold authStep
  rw [h]
  rfl

theorem authStep_uState_digit (pa iri : Bool) (c : Char) (i j : Nat)
    (da ha an : Bool) (h : classify c = CharClass.digit) :
    authStep true pa iri c i (uState j da ha an) =
      StepRes.cont (uState (i + c.utf8Size) true true an) := by
  unfold authStep
  rw [h]
  rfl

theorem authStep_uState_at (pa iri : Bool) (i j : Nat) (da ha an : Bool) :
    authStep true pa iri '@' i (uState j da ha an) =
      StepRes.cont (resetState j) := by
  unfold authStep
  rw [show classify '@' = CharClass.atsign from by decide]
  rfl

theorem scan_alnum (u : List Char) : ∀ (v : List Char) (pa iri : Bool)
    (i : Nat) (da ha an : Bool),
    (∀ c ∈ u, isAlnumAscii c = true) →
    ∃ da' ha' an',
      authLoop true pa iri (u ++ v) i (uState i da ha an) =
        authLoop true pa iri v (i + utf8Len u) (uState (i + utf8Len u) da' ha' an') := by
  induction u with
  | nil =>
    intro v pa iri i da ha an _
    exact ⟨da, ha, an, by simp [utf8Len]⟩
  | cons c u ih =>
    intro v pa iri i da ha an halnum
    have hc := halnum c (List.mem_cons_self c u)
    have hrest : ∀ x ∈ u, isAlnumAscii x = true :=
      fun x hx => halnum x (List.mem_cons_of_mem c hx)
    rw [List.cons_append, authLoop]
    rcases classify_alnum c hc with hcl | hcl
    · rw [authStep_uState_letter pa iri c i i da ha an hcl]
      simp only []
      obtain ⟨da', ha', an', hrec⟩ :=
        ih v pa iri (i + c.utf8Size) true true false hrest
      refine ⟨da', ha', an', ?_⟩
      rw [hrec]
      rw [show i + c.utf8Size + utf8Len u = i + utf8Len (c :: u) from by
        simp only [utf8Len]; omega]
    · rw [authStep_uState_digit pa iri c i i da ha an hcl]
      simp only []
      obtain ⟨da', ha', an', hrec⟩ :=
        ih v pa iri (i + c.utf8Size) true true an hrest
      refine ⟨da', ha', an', ?_⟩
      rw [hrec]
      rw [show i + c.utf8Size + utf8Len u = i + utf8Len (c :: u) from by
        simp only [utf8Len]; omega]

theorem map_shift_inj (k : Nat) (o1 o2 : Option Nat)
    (h : o1.map (fun x => k + x) = o2.map (fun x => k + x)) : o1 = o2 := by
  cases o1 with
  | none => cases o2 with
    | none => rfl
    | some b => simp at h
  | some a =>
    cases o2 with
    | none => simp at h
    | some b =>
      simp only [Option.map_some', Option.some.injEq] at h
      have hab : a = b := by omega
      rw [hab]

theorem shiftEnd_eq (k j sz : Nat) :
    some (k + j + sz) = (some (j + sz)).map (fun x => k + x) := by
  simp only [Option.map_some', Option.some.injEq]
  omega

theorem bool_eq_false_of_ne_true {b : Bool} (h : ¬ b = true) : b = false := by
  cases b with
  | false => rfl
  | true => exact absurd rfl h

set_option maxHeartbeats 3200000 in
theorem authStep_sim (pa iri : Bool) (c : Char) (j k : Nat)
    (st1 st2 : AuthState) (hrel : SimRel k st1 st2) :
    (authStep true pa iri c (k + j) st1 = StepRes.fail ∧
     authStep true pa iri c j st2 = StepRes.fail) ∨
    (∃ st1' st2', authStep true pa iri c (k + j) st1 = StepRes.stop st1' ∧
       authStep true pa iri c j st2 = StepRes.stop st2' ∧ SimRel k st1' st2') ∨
    (∃ st1' st2', authStep true pa iri c (k + j) st1 = StepRes.cont st1' ∧
       authStep true pa iri c j st2 = StepRes.cont st2' ∧ SimRel k st1' st2') := by
  obtain ⟨hnd, hda, hha, han, hmh, hhe, hui1, hui2, hm, hld, hend⟩ := hrel
  unfold authStep
  cases hcl : classify c
  all_goals simp only []
  case letter =>
    right; right
    refine ⟨_, _, rfl, rfl, ?_⟩
    unfold setEnd
    by_cases hhe2 : st2.host_ended = true
    · have hhe1 : st1.host_ended = true := by rw [hhe]; exact hhe2
      rw [show (!true || !st1.host_ended) = false by simp [hhe1],
        show (!true || !st2.host_ended) = false by simp [hhe2],
        if_neg Bool.false_ne_true, if_neg Bool.false_ne_true]
      refine ⟨hnd, rfl, rfl, rfl, by rw [hmh, hhe], hhe, hui1, hui2, hm, hm, ?_⟩
      rcases hend with hE | ⟨h1, h2, _⟩
      · exact Or.inl hE
      · refine Or.inr ⟨h1, h2, fun habs => ?_⟩
        have hx : (st1.maybe_host && !st1.host_ended) = true := habs
        rw [hhe1] at hx
        simp at hx
    · have hhe2' : st2.host_ended = false := bool_eq_false_of_ne_true hhe2
      have hhe1 : st1.host_ended = false := by rw [hhe]; exact hhe2'
      rw [show (!true || !st1.host_ended) = true by simp [hhe1],
        show (!true || !st2.host_ended) = true by simp [hhe2'],
        if_pos rfl, if_pos rfl]
      exact ⟨hnd, rfl, rfl, rfl, by rw [hmh, hhe], hhe, hui1, hui2, hm, hm,
        Or.inl (shiftEnd_eq k j c.utf8Size)⟩
  case big =>
    by_cases hiri : (!iri) = true
    · rw [if_pos hiri, if_pos hiri]
      exact Or.inr (Or.inl ⟨st1, st2, rfl, rfl,
        hnd, hda, hha, han, hmh, hhe, hui1, hui2, hm, hld, hend⟩)
    · rw [if_neg hiri, if_neg hiri]
      by_cases hws : rustIsWhitespace c = true
      · rw [if_pos hws, if_pos hws]
        exact Or.inr (Or.inl ⟨st1, st2, rfl, rfl,
          hnd, hda, hha, han, hmh, hhe, hui1, hui2, hm, hld, hend⟩)
      · rw [if_neg hws, if_neg hws]
        right; right
        refine ⟨_, _, rfl, rfl, ?_⟩
        unfold setEnd
        by_cases hhe2 : st2.host_ended = true
        · have hhe1 : st1.host_ended = true := by rw [hhe]; exact hhe2
          rw [show (!true || !st1.host_ended) = false by simp [hhe1],
            show (!true || !st2.host_ended) = false by simp [hhe2],
            if_neg Bool.false_ne_true, if_neg Bool.false_ne_true]
          refine ⟨hnd, rfl, rfl, rfl, by rw [hmh, hhe], hhe, hui1, hui2, hm, hm, ?_⟩
          rcases hend with hE | ⟨h1, h2, _⟩
          · exact Or.inl hE
          · refine Or.inr ⟨h1, h2, fun habs => ?_⟩
            have hx : (st1.maybe_host && !st1.host_ended) = true := habs
            rw [hhe1] at hx
            simp at hx
        · have hhe2' : st2.host_ended = false := bool_eq_false_of_ne_true hhe2
          have hhe1 : st1.host_ended = false := by rw [hhe]; exact hhe2'
          rw [show (!true || !st1.host_ended) = true by simp [hhe1],
            show (!true || !st2.host_ended) = true by simp [hhe2'],
            if_pos rfl, if_pos rfl]
          exact ⟨hnd, rfl, rfl, rfl, by rw [hmh, hhe], hhe, hui1, hui2, hm, hm,
            Or.inl (shiftEnd_eq k j c.utf8Size)⟩
  case digit =>
    right; right
    refine ⟨_, _, rfl, rfl, ?_⟩
    have hldnew : (if st1.last_dot ≠ st1.maybe_last_dot then st1.maybe_last_dot
        else st1.last_dot) =
        (if st2.last_dot ≠ st2.maybe_last_dot then st2.maybe_last_dot
        else st2.last_dot).map (fun x => k + x) := by
      by_cases hcm2 : st2.last_dot ≠ st2.maybe_last_dot
      · have hcm1 : st1.last_dot ≠ st1.maybe_last_dot := by
          intro heq
          rw [hld, hm] at heq
          exact hcm2 (map_shift_inj k _ _ heq)
        rw [if_pos hcm1, if_pos hcm2]
        exact hm
      · have hcm1 : ¬ st1.last_dot ≠ st1.maybe_last_dot := by
          intro hne
          exact hne (by rw [hld, hm, not_ne_iff.mp hcm2])
        rw [if_neg hcm1, if_neg hcm2]
        exact hld
    have hndnew : (if st1.last_dot ≠ st1.maybe_last_dot then st1.number_dots + 1
        else st1.number_dots) =
        (if st2.last_dot ≠ st2.maybe_last_dot then st2.number_dots + 1
        else st2.number_dots) := by
      by_cases hcm2 : st2.last_dot ≠ st2.maybe_last_dot
      · have hcm1 : st1.last_dot ≠ st1.maybe_last_dot := by
          intro heq
          rw [hld, hm] at heq
          exact hcm2 (map_shift_inj k _ _ heq)
        rw [if_pos hcm1, if_pos hcm2, hnd]
      · have hcm1 : ¬ st1.last_dot ≠ st1.maybe_last_dot := by
          intro hne
          exact hne (by rw [hld, hm, not_ne_iff.mp hcm2])
        rw [if_neg hcm1, if_neg hcm2, hnd]
    unfold setEnd
    by_cases hhe2 : st2.host_ended = true
    · have hhe1 : st1.host_ended = true := by rw [hhe]; exact hhe2
      rw [show (!true || !st1.host_ended) = false by simp [hhe1],
        show (!true || !st2.host_ended) = false by simp [hhe2],
        if_neg Bool.false_ne_true, if_neg Bool.false_ne_true]
      refine ⟨hndnew, rfl, rfl, han, by rw [hmh, hhe], hhe, hui1, hui2, hm,
        hldnew, ?_⟩
      rcases hend with hE | ⟨h1, h2, _⟩
      · exact Or.inl hE
      · refine Or.inr ⟨h1, h2, fun habs => ?_⟩
        have hx : (st1.maybe_host && !st1.host_ended) = true := habs
        rw [hhe1] at hx
        simp at hx
    · have hhe2' : st2.host_ended = false := bool_eq_false_of_ne_true hhe2
      have hhe1 : st1.host_ended = false := by rw [hhe]; exact hhe2'
      rw [show (!true || !st1.host_ended) = true by simp [hhe1],
        show (!true || !st2.host_ended) = true by simp [hhe2'],
        if_pos rfl, if_pos rfl]
      exact ⟨hndnew, rfl, rfl, han, by rw [hmh, hhe], hhe, hui1, hui2, hm,
        hldnew, Or.inl (shiftEnd_eq k j c.utf8Size)⟩
  case hyphen =>
    right; right
    refine ⟨_, _, rfl, rfl, ?_⟩
    unfold setEnd
    rw [show (!true) = false by simp, if_neg Bool.false_ne_true,
      if_neg Bool.false_ne_true]
    refine ⟨hnd, rfl, hha, rfl, by rw [hmh, hha], hhe, hui1, hui2, hm, hld, ?_⟩
    rcases hend with hE | ⟨h1, h2, hf⟩
    · exact Or.inl hE
    · refine Or.inr ⟨h1, h2, fun habs => ?_⟩
      have hx : (st1.maybe_host && st1.hyphen_allowed) = true := habs
      obtain ⟨hx1, hx2⟩ := Bool.and_eq_true_iff.mp hx
      obtain ⟨_, _, _, hhyf, _⟩ := hf hx1
      rw [hhyf] at hx2
      cases hx2
  case dot =>
    right; right
    refine ⟨_, _, rfl, rfl, ?_⟩
    refine ⟨hnd, rfl, rfl, han, hmh, by rw [hhe, hda], hui1, hui2, ?_, hld, ?_⟩
    · show some (k + j) = (some j).map (fun x => k + x)
      simp
    · rcases hend with hE | ⟨h1, h2, hf⟩
      · exact Or.inl hE
      · refine Or.inr ⟨h1, h2, fun habs => ?_⟩
        have hx : st1.maybe_host = true := habs
        obtain ⟨hf1, hf2, hf3, _, _⟩ := hf hx
        exact ⟨hf1, hf2, hf3, rfl, rfl⟩
  case undertilde =>
    right; right
    refine ⟨_, _, rfl, rfl, ?_⟩
    refine ⟨hnd, hda, hha, han, rfl, hhe, hui1, hui2, hm, hld, ?_⟩
    rcases hend with hE | ⟨h1, h2, _⟩
    · exact Or.inl hE
    · exact Or.inr ⟨h1, h2, fun habs => absurd habs (by simp)⟩
  case subdelim =>
    have hc1 : (!st1.userinfo_allowed && true) = true := by simp [hui1]
    have hc2 : (!st2.userinfo_allowed && true) = true := by simp [hui2]
    rw [if_pos hc1, if_pos hc2]
    right; left
    refine ⟨_, _, rfl, rfl, ?_⟩
    refine ⟨hnd, hda, hha, han, hmh, rfl, hui1, hui2, hm, hld, ?_⟩
    rcases hend with hE | ⟨h1, h2, hf⟩
    · exact Or.inl hE
    · refine Or.inr ⟨h1, h2, fun habs => hf habs⟩
  case colon =>
    by_cases hpa : pa = true
    · have hc1 : ¬ (!st1.userinfo_allowed && !pa) = true := by simp [hpa]
      have hc2 : ¬ (!st2.userinfo_allowed && !pa) = true := by simp [hpa]
      rw [if_neg hc1, if_neg hc2]
      right; right
      refine ⟨_, _, rfl, rfl, ?_⟩
      refine ⟨hnd, hda, hha, han, hmh, hhe, hui1, hui2, hld, hld, ?_⟩
      rcases hend with hE | ⟨h1, h2, hf⟩
      · exact Or.inl hE
      · exact Or.inr ⟨h1, h2, fun habs => hf habs⟩
    · have hpa' : pa = false := bool_eq_false_of_ne_true hpa
      have hc1 : (!st1.userinfo_allowed && !pa) = true := by simp [hui1, hpa']
      have hc2 : (!st2.userinfo_allowed && !pa) = true := by simp [hui2, hpa']
      rw [if_pos hc1, if_pos hc2]
      exact Or.inr (Or.inl ⟨st1, st2, rfl, rfl,
        hnd, hda, hha, han, hmh, hhe, hui1, hui2, hm, hld, hend⟩)
  case atsign =>
    have hc1 : (!st1.userinfo_allowed) = true := by simp [hui1]
    have hc2 : (!st2.userinfo_allowed) = true := by simp [hui2]
    rw [if_pos hc1, if_pos hc2]
    exact Or.inl ⟨rfl, rfl⟩
  case slash =>
    rw [show (!true) = false by simp, if_neg Bool.false_ne_true,
      if_neg Bool.false_ne_true]
    exact Or.inr (Or.inl ⟨st1, st2, rfl, rfl,
      hnd, hda, hha, han, hmh, hhe, hui1, hui2, hm, hld, hend⟩)
  case other =>
    exact Or.inr (Or.inl ⟨st1, st2, rfl, rfl,
      hnd, hda, hha, han, hmh, hhe, hui1, hui2, hm, hld, hend⟩)

theorem authLoop_sim (pa iri : Bool) (r : List Char) :
    ∀ (j k : Nat) (st1 st2 : AuthState), SimRel k st1 st2 →
    (authLoop true pa iri r (k + j) st1 = none ∧
     authLoop true pa iri r j st2 = none) ∨
    (∃ st1' st2', authLoop true pa iri r (k + j) st1 = some st1' ∧
       authLoop true pa iri r j st2 = some st2' ∧ SimRel k st1' st2') := by
  induction r with
  | nil =>
    intro j k st1 st2 hrel
    exact Or.inr ⟨st1, st2, rfl, rfl, hrel⟩
  | cons c cs ih =>
    intro j k st1 st2 hrel
    rw [authLoop, authLoop]
    rcases authStep_sim pa iri c j k st1 st2 hrel with
      ⟨h1, h2⟩ | ⟨s1, s2, h1, h2, hrel2⟩ | ⟨s1, s2, h1, h2, hrel2⟩
    · rw [h1, h2]
      exact Or.inl ⟨rfl, rfl⟩
    · rw [h1, h2]
      exact Or.inr ⟨s1, s2, rfl, rfl, hrel2⟩
    · rw [h1, h2]
      simp only []
      have hrec := ih (j + c.utf8Size) k s1 s2 hrel2
      rw [show k + (j + c.utf8Size) = k + j + c.utf8Size from by omega] at hrec
      exact hrec

/-- C4 amended: for a non-empty all-alphanumeric userinfo u and a
remainder r not opening an IPv6 literal, scanning u ++ at-sign ++ r
with userinfo allowed and a required host gives exactly the result of
scanning r alone with userinfo spent, with both offsets shifted by the
byte length of u plus one. -/
theorem claim_C4_amended (u r : List Char) (pa iri : Bool)
    (hu : u ≠ []) (halnum : ∀ c ∈ u, isAlnumAscii c = true)
    (hr : ¬ r.head? = some '[') :
    find_authority_end (u ++ '@' :: r) true true pa iri =
      ((find_authority_end r false true pa iri).1.map
         (fun x => utf8Len u + 1 + x),
       (find_authority_end r false true pa iri).2.map
         (fun x => utf8Len u + 1 + x)) := by
  obtain ⟨c0, u', rfl⟩ : ∃ c0 u', u = c0 :: u' := by
    cases u with
    | nil => exact absurd rfl hu
    | cons c0 u' => exact ⟨c0, u', rfl⟩
  have hlhshd : ¬ ((c0 :: u') ++ '@' :: r).head? = some '[' := by
    simp only [List.cons_append, List.head?_cons]
    intro hx
    injection hx with hx
    exact alnum_ne_lbracket c0 (halnum c0 (List.mem_cons_self c0 u')) hx
  -- the left scan: userinfo run, at-sign reset, then the remainder
  obtain ⟨da', ha', an', hscan⟩ :=
    scan_alnum (c0 :: u') ('@' :: r) pa iri 0 false false true halnum
  have hat : authLoop true pa iri ('@' :: r) (0 + utf8Len (c0 :: u'))
      (uState (0 + utf8Len (c0 :: u')) da' ha' an') =
      authLoop true pa iri r (0 + utf8Len (c0 :: u') + 1)
        (resetState (0 + utf8Len (c0 :: u'))) := by
    rw [authLoop, authStep_uState_at pa iri (0 + utf8Len (c0 :: u'))
      (0 + utf8Len (c0 :: u')) da' ha' an']
    rfl
  have hlhsloop : authLoop true pa iri ((c0 :: u') ++ '@' :: r) 0
      (initState true) =
      authLoop true pa iri r (utf8Len (c0 :: u') + 1)
        (resetState (utf8Len (c0 :: u'))) := by
    rw [show initState true = uState 0 false false true from rfl, hscan, hat]
    rw [show (0 + utf8Len (c0 :: u')) = utf8Len (c0 :: u') from by omega]
  set k := utf8Len (c0 :: u') + 1 with hk
  have hkrewrite : utf8Len (c0 :: u') = k - 1 := by omega
  have hrel0 : SimRel k (resetState (utf8Len (c0 :: u'))) (initState false) := by
    refine ⟨rfl, rfl, rfl, rfl, rfl, rfl, rfl, rfl, rfl, rfl, Or.inr ⟨?_, rfl, ?_⟩⟩
    · show some (utf8Len (c0 :: u')) = some (k - 1)
      rw [hkrewrite]
    · intro _
      exact ⟨rfl, rfl, rfl, rfl, rfl⟩
  have hsim := authLoop_sim pa iri r 0 k
    (resetState (utf8Len (c0 :: u'))) (initState false) hrel0
  rw [Nat.add_zero] at hsim
  have hsuffix : ∀ m, suffixFrom ((c0 :: u') ++ '@' :: r) (k + m) =
      suffixFrom r m := by
    intro m
    have h1 : (c0 :: u') ++ '@' :: r = ((c0 :: u') ++ ['@']) ++ r := by simp
    have h2 : utf8Len ((c0 :: u') ++ ['@']) = k := by
      rw [utf8Len_append, hk, show utf8Len ['@'] = 1 from rfl]
    rw [h1, ← h2, suffixFrom_append]
  unfold find_authority_end
  rw [if_neg hlhshd, if_neg hr, hlhsloop, hk]
  rcases hsim with ⟨h1, h2⟩ | ⟨st1, st2, h1, h2, hrel⟩
  · rw [h1, h2]
    rfl
  · rw [h1, h2]
    simp only []
    obtain ⟨hnd, hda, hha, han, hmh, hhe, hui1, hui2, hm, hld, hend⟩ := hrel
    rw [if_pos trivial, if_pos trivial]
    by_cases hmh2 : st2.maybe_host = true
    · have hmh1 : st1.maybe_host = true := by rw [hmh]; exact hmh2
      rw [if_pos hmh1, if_pos hmh2]
      by_cases han2 : st2.all_numeric = true
      · have han1 : st1.all_numeric = true := by rw [han]; exact han2
        rw [if_pos han1, if_pos han2]
        by_cases hnd3 : st2.number_dots ≠ 3
        · rw [if_pos (by rw [hnd]; exact hnd3), if_pos hnd3]
          rfl
        · rw [if_neg (by rw [hnd]; exact hnd3), if_neg hnd3]
          rcases hend with hE | ⟨_, _, hfacts⟩
          · simp only [Prod.mk.injEq]
            exact ⟨hE, hld⟩
          · exfalso
            obtain ⟨hz, _, _, _, _⟩ := hfacts hmh1
            rw [hnd] at hz
            exact hnd3 (by rw [hz]; decide)
      · have han1 : ¬ st1.all_numeric = true := by rw [han]; exact han2
        rw [if_neg han1, if_neg han2]
        have hanE : st1.endO = st2.endO.map (fun x => k + x) := by
          rcases hend with hE | ⟨_, _, hfacts⟩
          · exact hE
          · exfalso
            obtain ⟨_, hone, _, _, _⟩ := hfacts hmh1
            exact han2 (by rw [← han]; exact hone)
        cases hld2 : st2.last_dot with
        | none =>
          have hld1 : st1.last_dot = none := by rw [hld, hld2]; rfl
          rw [hld1]
          simp only [Prod.mk.injEq]
          exact ⟨hanE, rfl⟩
        | some d2 =>
          have hld1 : st1.last_dot = some (k + d2) := by rw [hld, hld2]; rfl
          rw [hld1]
          simp only []
          have hsfx : suffixFrom ((c0 :: u') ++ '@' :: r) (k + d2 + 1) =
              suffixFrom r (d2 + 1) := by
            rw [show k + d2 + 1 = k + (d2 + 1) from by omega]
            exact hsuffix (d2 + 1)
          rw [hsfx]
          by_cases htld : valid_tld (suffixFrom r (d2 + 1)) = true
          · rw [if_pos htld, if_pos htld]
            simp only [Prod.mk.injEq]
            exact ⟨hanE, rfl⟩
          · rw [if_neg htld, if_neg htld]
            rfl
    · have hmh1 : ¬ st1.maybe_host = true := by rw [hmh]; exact hmh2
      rw [if_neg hmh1, if_neg hmh2]
      rfl

/-- C4 fails as stated: the at-sign reset does not reset number_dots,
so dots committed inside the userinfo 1.2 still count towards the IPv4
heuristic after the at-sign.  The characters of 1.2 are all scanned
without breaking and contain no at-sign or slash, yet the results are
not related by the shift. -/
theorem claim_C4_counterexample :
    find_authority_end ("1.2@2.3.4".data) true true false true =
      (some 9, some 7) ∧
    find_authority_end ("2.3.4".data) false true false true = (none, none) ∧
    find_authority_end ("1.2@2.3.4".data) true true false true ≠
      ((find_authority_end ("2.3.4".data) false true false true).1.map
         (fun x => utf8Len ("1.2".data) + 1 + x),
       (find_authority_end ("2.3.4".data) false true false true).2.map
         (fun x => utf8Len ("1.2".data) + 1 + x)) := by decide

theorem claim_C4_witness :
    find_authority_end ("ab".data ++ '@' :: "c.de".data) true true false true =
      ((find_authority_end ("c.de".data) false true false true).1.map
         (fun x => utf8Len ("ab".data) + 1 + x),
       (find_authority_end ("c.de".data) false true false true).2.map
         (fun x => utf8Len ("ab".data) + 1 + x)) :=
  claim_C4_amended ("ab".data) ("c.de".data) false true (by decide)
    (by decide) (by decide)

end Linkify
